import Mathlib

/-!
Shallow embedding of the multi-project build/release orchestrator scripts
(the clean script, `publish.ts` with its build variant, and `zip.ts`).

The embedding covers: the string/path helpers of `node:path` that the
scripts call (`extname`, `basename`, `join`), the project detector
`detectProject`, the recursive directory scanner `scanDirectories`, the
four operation strategies (`executeBuild`, `executePublish`, `executeZip`,
`executeClean`) over an explicit `World` oracle that models the external
collaborators (filesystem reads, JSON manifests, subprocesses, glob), with
an explicit trace of external-process and filesystem-mutation effects, and
the bounded-concurrency `processQueue` dispatch loop as a small-step
relation on a dispatcher state.
-/

open scoped List

/-! ## String helpers (JS string methods on exploded strings) -/

/-- Is the first list a prefix of the second? (JS `String.startsWith`). -/
def listIsPre : List Char → List Char → Bool
  | [], _ => true
  | _ :: _, [] => false
  | a :: as, b :: bs => a == b && listIsPre as bs

/-- Does the second list contain the first as a contiguous sublist?
(JS `String.includes`). -/
def listHasSub (pat : List Char) : List Char → Bool
  | [] => listIsPre pat []
  | c :: rest => listIsPre pat (c :: rest) || listHasSub pat rest

/-- JS `s.startsWith(pre)`. -/
def strStartsWith (s pre : String) : Bool := listIsPre pre.data s.data

/-- JS `s.endsWith(suf)`. -/
def strEndsWith (s suf : String) : Bool := listIsPre suf.data.reverse s.data.reverse

/-- JS `s.includes(sub)`. -/
def strHasSub (s sub : String) : Bool := listHasSub sub.data s.data

/-- JS `s.slice(1)` on a string: drop the first character. -/
def strDropFirst (s : String) : String := ⟨s.data.drop 1⟩

/-- JS `s.slice(0, -1)` on a string: drop the last character. -/
def strDropLast (s : String) : String := ⟨s.data.dropLast⟩

/-- JS `s.slice(1, -1)` on a string: drop first and last characters. -/
def strDropBoth (s : String) : String := ⟨(s.data.drop 1).dropLast⟩

/-- Replace the first occurrence of `pat` by `repl` in a character list
(JS `String.replace` with a string pattern: first occurrence only; an
empty pattern matches at position 0). -/
def replaceFirstChars (pat repl : List Char) : List Char → List Char
  | [] => if listIsPre pat [] then repl else []
  | c :: rest =>
    if listIsPre pat (c :: rest) then repl ++ (c :: rest).drop pat.length
    else c :: replaceFirstChars pat repl rest

/-- JS `s.replace(pat, repl)` with a plain-string pattern. -/
def replaceFirst (s pat repl : String) : String :=
  ⟨replaceFirstChars pat.data repl.data s.data⟩

/-! ## `node:path` helpers used by the scripts

The scripts run the POSIX flavour of `node:path`; entry names coming from
`readdir` are plain child names without separators. -/

/-- Drop trailing `/` characters (POSIX `basename` ignores them). -/
def dropTrailingSlashes (cs : List Char) : List Char :=
  (cs.reverse.dropWhile (fun c => c == '/')).reverse

/-- `node:path` `basename`: the last path component, ignoring trailing
separators. -/
def basename (s : String) : String :=
  ⟨(dropTrailingSlashes s.data).foldl (fun acc c => if c == '/' then [] else acc ++ [c]) []⟩

/-- The suffix of a character list starting at its last `.`, if any. -/
def afterLastDot : List Char → Option (List Char)
  | [] => none
  | c :: rest =>
    match afterLastDot rest with
    | some s => some s
    | none => if c == '.' then some (c :: rest) else none

/-- `node:path` `extname` restricted to plain entry names (no separators):
the suffix from the last dot, except that a dot at index 0 yields no
extension (hidden files such as `.csproj` have none) and `..` has none. -/
def extname (name : String) : String :=
  match name.data with
  | [] => ""
  | _ :: rest =>
    if name = ".." then ""
    else
      match afterLastDot rest with
      | some s => ⟨s⟩
      | none => ""

/-- Split a character list into the segments between `/` characters
(empty segments included). -/
def splitOnSlash (cs : List Char) : List (List Char) :=
  cs.foldr
    (fun c acc =>
      match acc with
      | seg :: t => if c == '/' then [] :: seg :: t else (c :: seg) :: t
      | [] => [])
    [[]]

/-- Segment normalization of `node:path` `normalize`: skip empty and `.`
segments, resolve `..` against the accumulated stack; `allowUp` keeps
leading `..` segments (relative paths) instead of dropping them (absolute
paths). The accumulator holds processed segments in reverse. -/
def normSegs (allowUp : Bool) : List (List Char) → List (List Char) → List (List Char)
  | acc, [] => acc.reverse
  | acc, seg :: rest =>
    if seg == [] || seg == ['.'] then normSegs allowUp acc rest
    else if seg == ['.', '.'] then
      match acc with
      | [] =>
        if allowUp then normSegs allowUp [['.', '.']] rest else normSegs allowUp [] rest
      | top :: t =>
        if top == ['.', '.'] then normSegs allowUp (['.', '.'] :: top :: t) rest
        else normSegs allowUp t rest
    else normSegs allowUp (seg :: acc) rest

/-- Interleave `/` between segments. -/
def intercalSlash : List (List Char) → List Char
  | [] => []
  | [s] => s
  | s :: rest => s ++ '/' :: intercalSlash rest

/-- `node:path` POSIX `normalize` (trailing-slash preservation is not
modelled; no caller of `join` in the scripts depends on it). -/
def normalizePath (s : String) : String :=
  let cs := s.data
  let isAbs := listIsPre ['/'] cs
  let segs := normSegs (!isAbs) [] (splitOnSlash cs)
  if isAbs then ⟨'/' :: intercalSlash segs⟩
  else if segs == [] then "."
  else ⟨intercalSlash segs⟩

/-- `node:path` POSIX `join` of two parts: empty parts are skipped, the
rest are joined with `/` and normalized; joining nothing gives `.`. -/
def joinPath (a b : String) : String :=
  if a = "" then (if b = "" then "." else normalizePath b)
  else if b = "" then normalizePath a
  else normalizePath (a ++ "/" ++ b)

/-! ## Data model -/

/-- Project classification, as in the scripts' `ProjectType` union. -/
inductive ProjectType where
  | node
  | dotnet
  | unknown
deriving DecidableEq, Repr

/-- The string form of a `ProjectType` (JS template interpolation). -/
def ProjectType.str : ProjectType → String
  | .node => "node"
  | .dotnet => "dotnet"
  | .unknown => "unknown"

/-- A discovered project: directory path, type, and manifest file path. -/
structure Project where
  path : String
  type : ProjectType
  file : String
deriving DecidableEq, Repr

/-- One `readdir(withFileTypes)` entry: its name and whether
`isDirectory()` holds (symlinks report `false` there). -/
structure DirEntry where
  name : String
  isDir : Bool
deriving DecidableEq, Repr

/-! ## Project detection (`detectProject`, identical in all three scripts) -/

/-- The dotnet manifest extensions recognized by `detectProject`. -/
def dotnetExtensions : List String := [".csproj", ".vbproj", ".fsproj"]

/-- Does an entry carry a dotnet project extension? (`extname` of its
name is in `dotnetExtensions`). -/
def isDotnetEntry (e : DirEntry) : Bool :=
  dotnetExtensions.contains (extname e.name)

/-- `detectProject(dir, entries)`: a `node` project if some entry is named
`package.json`; otherwise a `dotnet` project for the first entry whose
extension is `.csproj`/`.vbproj`/`.fsproj`; otherwise none. -/
def detectProject (dir : String) (entries : List DirEntry) : Option Project :=
  if entries.any (fun e => e.name == "package.json") then
    some ⟨dir, ProjectType.node, joinPath dir "package.json"⟩
  else
    match entries.find? isDotnetEntry with
    | some e => some ⟨dir, ProjectType.dotnet, joinPath dir e.name⟩
    | none => none

/-! ## Root resolution (the `fullPath` computation in `scanDirectories`) -/

/-- The scripts' absolute-path test: `dir.startsWith("\\")` (a single
backslash) or the drive-letter pattern `/^[A-Za-z]:/`. -/
def isDriveLike (s : String) : Bool :=
  match s.data with
  | c :: d :: _ => d == ':' && (('A' ≤ c && c ≤ 'Z') || ('a' ≤ c && c ≤ 'z'))
  | _ => false

/-- The `fullPath` computation of `scanDirectories`: a root passing the
backslash/drive-letter test is used as-is, anything else is joined onto
the current working directory. -/
def resolveDir (cwd dir : String) : String :=
  if strStartsWith dir "\\" || isDriveLike dir then dir else joinPath cwd dir

/-- Modelled from the spec: the POSIX platform-specific absolute form of a
path, "inputs already absolute (platform-specific absolute forms)". Used
only to compare the spec's claim about absolute inputs with `resolveDir`. -/
def specPosixAbsolute (s : String) : Bool := strStartsWith s "/"

/-! ## Directory scanner (`scanDirectories`, identical in all three scripts)

The scanner threads one mutable `visited` set through the whole call tree.
The embedding threads a `ScanSt` record instead; its `scanned` field is
instrumentation recording each path at the moment `readdir` is attempted
on it, in order.  Recursion through an arbitrary filesystem oracle is made
total with a fuel argument bounding the recursion depth into
subdirectories. -/

/-- The filesystem oracle for scanning: `readdir(withFileTypes)` results;
`none` models a thrown error (permission, non-existence). -/
def Fs := String → Option (List DirEntry)

/-- Scanner state: the shared `visited` set, the instrumentation trace of
attempted `readdir` calls, and the accumulated projects. -/
structure ScanSt where
  visited : List String
  scanned : List String
  projects : List Project
deriving Repr

/-- State update for one unvisited directory: mark it visited, record the
`readdir` attempt, and append a detected project if any (`none` both for a
failed `readdir` and for a directory with no project). -/
def visitDir (st : ScanSt) (p : String) (pr : Option Project) : ScanSt :=
  ⟨p :: st.visited, st.scanned ++ [p], st.projects ++ pr.toList⟩

/-- The subdirectory recursion list: child directories except
`node_modules`, joined onto the parent path. -/
def subdirPaths (fullPath : String) (entries : List DirEntry) : List String :=
  (entries.filter (fun e => e.isDir && e.name != "node_modules")).map
    (fun e => joinPath fullPath e.name)

/-- The body of `scanDirectories(directories, visited)`: iterate over the
roots; resolve each; skip already-visited paths; otherwise mark visited,
attempt `readdir` (a failure is logged and skipped), detect a project, and
recurse into subdirectories before continuing with the remaining roots. -/
def scanGo (fs : Fs) (cwd : String) : Nat → List String → ScanSt → ScanSt
  | _, [], st => st
  | fuel, dir :: rest, st =>
    let fullPath := resolveDir cwd dir
    if fullPath ∈ st.visited then
      scanGo fs cwd fuel rest st
    else
      match fs fullPath with
      | none => scanGo fs cwd fuel rest (visitDir st fullPath none)
      | some entries =>
        match fuel with
        | 0 => scanGo fs cwd 0 rest (visitDir st fullPath (detectProject fullPath entries))
        | Nat.succ f =>
          scanGo fs cwd (Nat.succ f) rest
            (scanGo fs cwd f (subdirPaths fullPath entries)
              (visitDir st fullPath (detectProject fullPath entries)))
termination_by fuel dirs _ => (fuel, dirs.length)

/-- `scanDirectories(directories)` from a fresh (empty) visited set. -/
def scanDirectories (fs : Fs) (cwd : String) (fuel : Nat) (dirs : List String) : ScanSt :=
  scanGo fs cwd fuel dirs ⟨[], [], []⟩

/-! ## Operation strategies

Each strategy is embedded as a function of a `World` oracle (the external
collaborators: manifest reads, the pnpm probe, subprocess outcomes, `stat`,
`glob`, `rm`, the archive library, and the clock) returning the result the
script computes together with an explicit trace of its external-process
invocations and filesystem mutations.  Read-only filesystem accesses
(`readFile`, `stat`, `glob`, `readdir`) are answered by the oracle and are
not mutations, so they do not appear in the trace. -/

/-- Outcome of one `promisify(exec)` call: exit status, captured streams,
and the `error.message` text when it rejects. -/
structure ExecOutcome where
  ok : Bool
  stdout : String
  stderr : String
  errMsg : String
deriving DecidableEq, Repr

/-- `error.stderr || error.message` of a rejected `exec` call. -/
def execErrText (o : ExecOutcome) : String :=
  if o.stderr = "" then o.errMsg else o.stderr

/-- The `scripts` object of a parsed `package.json` (only `build` is read
by the scripts). -/
structure PkgScripts where
  build : Option String
deriving DecidableEq, Repr

/-- A compression configuration; every field optional, as in the `zip`
override object of `package.json` and the scripts' `CompressionConfig`. -/
inductive CompressionFormat where
  | zip
  | tar
  | tgz
deriving DecidableEq, Repr

/-- The string form of a `CompressionFormat`. -/
def CompressionFormat.str : CompressionFormat → String
  | .zip => "zip"
  | .tar => "tar"
  | .tgz => "tgz"

/-- The scripts' `CompressionConfig` (all fields optional in TS). -/
structure CompressionConfig where
  files : Option (List String)
  exclude : Option (List String)
  format : Option CompressionFormat
  output : Option String
deriving DecidableEq, Repr

/-- A parsed `package.json` manifest: the `scripts` object (absent models
a falsy `scripts`) and the optional `zip` override object. -/
structure PackageJson where
  scripts : Option PkgScripts
  zip : Option CompressionConfig
deriving DecidableEq, Repr

/-- `packageJson.scripts && packageJson.scripts.build` (JS truthiness: an
absent `scripts`, an absent `build`, and an empty-string `build` are all
falsy). -/
def hasBuildScript (pkg : PackageJson) : Bool :=
  match pkg.scripts with
  | none => false
  | some s =>
    match s.build with
    | none => false
    | some b => b != ""

/-- Kind reported by `stat`. -/
inductive FsKind where
  | file
  | dir
  | other
deriving DecidableEq, Repr

/-- An external-process invocation or filesystem mutation performed by a
strategy, in order. -/
inductive Effect where
  | exec (cmd : String) (cwd : Option String)
  | rm (path : String)
  | writeStream (path : String)
  | addDir (src : String) (base : String)
  | addFile (src : String) (base : String)
deriving DecidableEq, Repr

/-- The `pnpm --version` availability probe of `checkPnpmAvailable` (an
`exec` with no `cwd` option). -/
def probeEffect : Effect := Effect.exec "pnpm --version" none

/-- The external collaborators of the strategies. -/
structure World where
  /-- `readFile` + `JSON.parse` of a manifest path; `.error` is the
  thrown error's message. -/
  manifest : String → Except String PackageJson
  /-- Whether the `pnpm --version` probe succeeds. -/
  pnpm : Bool
  /-- Outcome of `promisify(exec)(cmd, \x7b cwd \x7d)`. -/
  run : String → String → ExecOutcome
  /-- `stat` of a path; `none` models a throw (absent path). -/
  statKind : String → Option FsKind
  /-- `glob(pattern, \x7b cwd \x7d)` matches (paths relative to `cwd`). -/
  glob : String → String → List String
  /-- Whether a path exists at `rm` time. -/
  pathExists : String → Bool
  /-- Failure message of `rm` on an existing path, if it fails. -/
  rmError : String → Option String
  /-- Error thrown by the archiver pipeline, if any. -/
  archiveError : Option String
  /-- All files under a directory, relative to it (what
  `archive.directory` walks). -/
  treeFiles : String → List String
  /-- `new Date().toISOString()` at the moment the strategy runs. -/
  nowISO : String

/-- The result record shared by the strategies:
`\x7b success, message, error?, outputFile? \x7d` (only `executeZip` sets
`outputFile`). -/
structure StratResult where
  success : Bool
  message : String
  error : Option String
  outputFile : Option String
deriving DecidableEq, Repr

/-! ### Build (`executeBuild` of the build variant of `publish.ts`) -/

/-- Options of the build script (`nodeCommand` is parsed but never used by
`executeBuild`, which hardcodes the pnpm/npm choice). -/
structure BuildOptions where
  dryRun : Bool
  verbose : Bool
  configuration : String
  nodeCommand : String
deriving DecidableEq, Repr

/-- The tail of `executeBuild` once `command` is chosen: dry-run returns
the preview; otherwise the command runs in the project directory and the
result reports success or the captured error. `effs` are the effects
already performed while choosing the command (the pnpm probe). -/
def buildRun (w : World) (project : Project) (opts : BuildOptions) (command : String)
    (effs : List Effect) : StratResult × List Effect :=
  if opts.dryRun then
    (⟨true, s!"[DRY RUN] 将要执行: {command} 在目录 {project.path}", none, none⟩, effs)
  else
    let o := w.run command project.path
    let effs2 := effs ++ [Effect.exec command (some project.path)]
    if o.ok then
      (⟨true, s!"成功执行 {command} 在目录 {project.path}",
        if opts.verbose then some (o.stdout ++ "\n" ++ o.stderr) else none, none⟩, effs2)
    else
      (⟨false, s!"执行 {command} 在目录 {project.path} 失败", some (execErrText o), none⟩, effs2)

/-- `executeBuild(project, options)`: node projects read the manifest and
fail (without exec) when no build script is configured, otherwise probe
pnpm and run the chosen manager; dotnet projects run `dotnet build`;
unknown types fail. -/
def executeBuild (w : World) (project : Project) (opts : BuildOptions) :
    StratResult × List Effect :=
  match project.type with
  | ProjectType.node =>
    match w.manifest project.file with
    | Except.error e => (⟨false, s!"读取 package.json 失败: {e}", none, none⟩, [])
    | Except.ok pkg =>
      if hasBuildScript pkg then
        buildRun w project opts (if w.pnpm then "pnpm run build" else "npm run build")
          [probeEffect]
      else
        (⟨false, s!"Node.js项目 {project.path} 中没有配置 build 脚本", none, none⟩, [])
  | ProjectType.dotnet =>
    buildRun w project opts (s!"dotnet build \"{project.file}\" -c {opts.configuration}") []
  | ProjectType.unknown =>
    (⟨false, s!"未知项目类型: unknown", none, none⟩, [])

/-! ### Publish (`executePublish` of `publish.ts`) -/

/-- Options of the publish script. -/
structure PublishOptions where
  dryRun : Bool
  verbose : Bool
  configuration : String
deriving DecidableEq, Repr

/-- The publish stage of `publishNodeProject` (after the optional build
step): probe pnpm, then dry-run preview or actual `pnpm publish` /
`npm publish` in the project directory. -/
def publishStage (w : World) (project : Project) (dryRun verbose : Bool)
    (effs : List Effect) : StratResult × List Effect :=
  let publishCommand := if w.pnpm then "pnpm publish" else "npm publish"
  let effs1 := effs ++ [probeEffect]
  if dryRun then
    (⟨true, s!"[DRY RUN] 将要执行: {publishCommand} 在目录 {project.path}", none, none⟩, effs1)
  else
    let o := w.run publishCommand project.path
    let effs2 := effs1 ++ [Effect.exec publishCommand (some project.path)]
    if o.ok then
      (⟨true, s!"成功执行 {publishCommand} 在目录 {project.path}",
        if verbose then some (o.stdout ++ "\n" ++ o.stderr) else none, none⟩, effs2)
    else
      (⟨false, s!"发布 Node.js 项目 {project.path} 失败", some (execErrText o), none⟩, effs2)

/-- `publishNodeProject`: read the manifest (a read/parse failure is
caught into a failed result); when a build script is declared, probe pnpm
and (outside dry-run) run the build command, aborting the publish on its
failure; then the publish stage. -/
def publishNodeProject (w : World) (project : Project) (dryRun verbose : Bool) :
    StratResult × List Effect :=
  match w.manifest project.file with
  | Except.error e => (⟨false, s!"发布 Node.js 项目 {project.path} 失败", some e, none⟩, [])
  | Except.ok pkg =>
    if hasBuildScript pkg then
      let buildCommand := if w.pnpm then "pnpm run build" else "npm run build"
      if dryRun then
        publishStage w project dryRun verbose [probeEffect]
      else
        let o := w.run buildCommand project.path
        let effs := [probeEffect, Effect.exec buildCommand (some project.path)]
        if o.ok then
          publishStage w project dryRun verbose effs
        else
          (⟨false, s!"发布 Node.js 项目 {project.path} 失败", some (execErrText o), none⟩, effs)
    else
      publishStage w project dryRun verbose []

/-- `publishDotnetProject`: dry-run preview or `dotnet publish` against
the manifest with the configured configuration. -/
def publishDotnetProject (w : World) (project : Project) (dryRun verbose : Bool)
    (configuration : String) : StratResult × List Effect :=
  let publishCommand := s!"dotnet publish \"{project.file}\" -c {configuration}"
  if dryRun then
    (⟨true, s!"[DRY RUN] 将要执行: {publishCommand} 在目录 {project.path}", none, none⟩, [])
  else
    let o := w.run publishCommand project.path
    let effs := [Effect.exec publishCommand (some project.path)]
    if o.ok then
      (⟨true, s!"成功执行 {publishCommand} 在目录 {project.path}",
        if verbose then some (o.stdout ++ "\n" ++ o.stderr) else none, none⟩, effs)
    else
      (⟨false, s!"发布 .NET 项目 {project.path} 失败", some (execErrText o), none⟩, effs)

/-- `executePublish(project, options)`: dispatch on the project type. -/
def executePublish (w : World) (project : Project) (opts : PublishOptions) :
    StratResult × List Effect :=
  match project.type with
  | ProjectType.node => publishNodeProject w project opts.dryRun opts.verbose
  | ProjectType.dotnet =>
    publishDotnetProject w project opts.dryRun opts.verbose opts.configuration
  | ProjectType.unknown =>
    (⟨false, s!"未知项目类型: unknown", none, none⟩, [])

/-! ### Archive (`executeZip` of `zip.ts`) -/

/-- Options of the zip script (scan/concurrency options omitted; the
strategy reads `dryRun`, `verbose`, `format`, `output`). -/
structure ZipOptions where
  dryRun : Bool
  verbose : Bool
  format : CompressionFormat
  output : String
deriving DecidableEq, Repr

/-- JS object spread `\x7b ...defaultConfig, ...packageJson.zip \x7d`:
fields defined on the override replace the defaults. -/
def mergeZipConfig (d : CompressionConfig) (ov : Option CompressionConfig) :
    CompressionConfig :=
  match ov with
  | none => d
  | some o => ⟨o.files <|> d.files, o.exclude <|> d.exclude, o.format <|> d.format,
      o.output <|> d.output⟩

/-- The per-type default compression configurations of
`readCompressionConfig`. -/
def nodeDefaultZipConfig (defaultFormat : CompressionFormat) : CompressionConfig :=
  ⟨some ["dist", "build", "out"], some ["node_modules", "*.log", ".git"],
    some defaultFormat, some "\x7bproject\x7d-\x7btimestamp\x7d.\x7bformat\x7d"⟩

/-- The dotnet default compression configuration. -/
def dotnetZipConfig (defaultFormat : CompressionFormat) : CompressionConfig :=
  ⟨some ["bin/Release", "bin/Debug", "publish"], some ["obj", "node_modules", "*.log", ".git"],
    some defaultFormat, some "\x7bproject\x7d-\x7btimestamp\x7d.\x7bformat\x7d"⟩

/-- The bottom fallback configuration (unknown type, or a failed manifest
read/parse). -/
def fallbackZipConfig (defaultFormat : CompressionFormat) : CompressionConfig :=
  ⟨some ["dist", "build", "out", "bin", "publish"], some ["node_modules", "*.log", ".git"],
    some defaultFormat, some "\x7bproject\x7d-\x7btimestamp\x7d.\x7bformat\x7d"⟩

/-- `readCompressionConfig(project, defaultFormat)`: node projects merge
the node defaults with the manifest's `zip` object (a read/parse failure
is caught and falls through to the fallback); dotnet projects use their
fixed defaults; anything else the fallback. -/
def readCompressionConfig (w : World) (project : Project)
    (defaultFormat : CompressionFormat) : CompressionConfig :=
  match project.type with
  | ProjectType.node =>
    match w.manifest project.file with
    | Except.ok pkg => mergeZipConfig (nodeDefaultZipConfig defaultFormat) pkg.zip
    | Except.error _ => fallbackZipConfig defaultFormat
  | ProjectType.dotnet => dotnetZipConfig defaultFormat
  | ProjectType.unknown => fallbackZipConfig defaultFormat

/-- `new Date().toISOString().replace(/[:.]/g, "-").slice(0, 19)`. -/
def sanitizeTimestamp (iso : String) : String :=
  ⟨(iso.data.map (fun c => if c == ':' || c == '.' then '-' else c)).take 19⟩

/-- `generateOutputFilename(project, format, template)`: substitute (first
occurrence each of) `\x7bproject\x7d`, `\x7btimestamp\x7d`,
`\x7bformat\x7d` in the template. -/
def generateOutputFilename (w : World) (project : Project) (format : CompressionFormat)
    (template : String) : String :=
  replaceFirst
    (replaceFirst
      (replaceFirst template "\x7bproject\x7d" (basename project.path))
      "\x7btimestamp\x7d" (sanitizeTimestamp w.nowISO))
    "\x7bformat\x7d" format.str

/-- `shouldExclude(path, excludePatterns)`: match the basename of the path
against each pattern, supporting `*x*` (substring), `*x` (suffix), `x*`
(prefix) and exact forms. -/
def shouldExclude (path : String) (excludePatterns : List String) : Bool :=
  let pathName := basename path
  excludePatterns.any fun pattern =>
    if strStartsWith pattern "*" && strEndsWith pattern "*" then
      strHasSub pathName (strDropBoth pattern)
    else if strStartsWith pattern "*" then
      strEndsWith pathName (strDropFirst pattern)
    else if strEndsWith pattern "*" then
      strStartsWith pathName (strDropLast pattern)
    else
      pathName == pattern

/-- The include-list filter of `executeZip`: an entry survives when `stat`
succeeds with a file or directory and the full path is not excluded. -/
def zipSurvives (w : World) (projPath : String) (excludePatterns : List String)
    (pat : String) : Bool :=
  let fullPath := joinPath projPath pat
  match w.statKind fullPath with
  | some FsKind.file => !shouldExclude fullPath excludePatterns
  | some FsKind.dir => !shouldExclude fullPath excludePatterns
  | _ => false

/-- The `archive.directory` / `archive.file` call for one surviving
include entry. -/
def zipAddEffect (w : World) (projPath : String) (pat : String) : Effect :=
  let fullPath := joinPath projPath pat
  if w.statKind fullPath == some FsKind.dir then Effect.addDir fullPath (basename pat)
  else Effect.addFile fullPath (basename pat)

/-- `executeZip(project, options)`: read the configuration, compute the
output name; dry-run returns the preview before any filtering; otherwise
filter the include list, fail non-fatally when nothing survives, else
open the output stream, add each entry, finalize (an archiver error is
caught into a failed result). -/
def executeZip (w : World) (project : Project) (opts : ZipOptions) :
    StratResult × List Effect :=
  let config := readCompressionConfig w project opts.format
  let compressionFormat := config.format.getD opts.format
  let outputFilename :=
    generateOutputFilename w project compressionFormat (config.output.getD opts.output)
  let outputPath := joinPath project.path outputFilename
  if opts.dryRun then
    (⟨true, s!"[DRY RUN] 将要压缩项目 {project.path} 到 {outputFilename}",
      none, some outputFilename⟩, [])
  else
    let excludePatterns := config.exclude.getD []
    let filesToCompress := (config.files.getD []).filter
      (zipSurvives w project.path excludePatterns)
    if filesToCompress.isEmpty then
      (⟨false, s!"项目 {project.path} 中没有找到要压缩的文件", none, none⟩, [])
    else
      let effs := Effect.writeStream outputPath ::
        filesToCompress.map (zipAddEffect w project.path)
      match w.archiveError with
      | some e => (⟨false, s!"压缩项目 {project.path} 失败", some e, none⟩, effs)
      | none =>
        (⟨true, s!"成功压缩项目 {project.path} 到 {outputFilename}",
          none, some outputFilename⟩, effs)

/-- The files that end up inside the archive, from the effect trace: a
directory entry contributes its whole recursive tree under its basename
(no exclusion filtering), a file entry contributes its basename. -/
def archiveContents (w : World) (effects : List Effect) : List String :=
  effects.flatMap fun e =>
    match e with
    | Effect.addDir src base => (w.treeFiles src).map (fun f => base ++ "/" ++ f)
    | Effect.addFile _ base => [base]
    | _ => []

/-! ### Clean (`executeClean` of the clean script) -/

/-- The hardcoded artifact list of `executeClean`. -/
def filesToClean : List String :=
  ["test-dist", "*.log", "bin", "dist", "node_modules", "package-lock.json",
    "pnpm-lock.yaml", "bun.lockb", "obj", "release", "build", "out", ".turbo", ".expo"]

/-- Outcome of `rm(path, \x7b recursive: true, force: true \x7d)`: with
`force`, an absent target succeeds; on an existing target the oracle may
report a failure message. -/
def rmOutcome (w : World) (p : String) : Option String :=
  if w.pathExists p then w.rmError p else none

/-- Accumulated outcome of the inner loops of `executeClean`: the effect
trace, the `totalCleaned` counter, and the first failure `(file, error)`
if one occurred. -/
structure CleanStep where
  effects : List Effect
  cleaned : Nat
  failure : Option (String × String)
deriving DecidableEq, Repr

/-- The inner loop of `executeClean` over the matches of one pattern:
dry-run only logs; otherwise each match is removed, stopping at the first
failure. -/
def runRmList (w : World) (projPath : String) (dryRun : Bool) : List String → CleanStep
  | [] => ⟨[], 0, none⟩
  | file :: rest =>
    if dryRun then runRmList w projPath dryRun rest
    else
      let filePath := joinPath projPath file
      match rmOutcome w filePath with
      | none =>
        let out := runRmList w projPath dryRun rest
        ⟨Effect.rm filePath :: out.effects, out.cleaned + 1, out.failure⟩
      | some err => ⟨[Effect.rm filePath], 0, some (file, err)⟩

/-- The outer loop of `executeClean` over the hardcoded patterns: glob
each pattern in the project directory and process its matches, stopping
at the first failure. -/
def runPatterns (w : World) (projPath : String) (dryRun : Bool) : List String → CleanStep
  | [] => ⟨[], 0, none⟩
  | pat :: rest =>
    let out := runRmList w projPath dryRun (w.glob pat projPath)
    match out.failure with
    | some f => ⟨out.effects, out.cleaned, some f⟩
    | none =>
      let outR := runPatterns w projPath dryRun rest
      ⟨out.effects ++ outR.effects, out.cleaned + outR.cleaned, outR.failure⟩

/-- `executeClean(project, dryRun, verbose)`: run the pattern loops; a
failure removing one match aborts with that error, otherwise report the
number of removed entries. -/
def executeClean (w : World) (project : Project) (dryRun verbose : Bool) :
    StratResult × List Effect :=
  let out := runPatterns w project.path dryRun filesToClean
  match out.failure with
  | some fe =>
    (⟨false, s!"删除 {fe.fst} 失败", some fe.snd, none⟩, out.effects)
  | none =>
    (⟨true, s!"成功清理项目 {project.path}，共清理 {out.cleaned} 个文件/目录", none, none⟩,
      out.effects)

/-- The flattened sequence of matched paths an `executeClean` run visits,
in order: the glob matches of each hardcoded pattern. -/
def cleanMatches (w : World) (project : Project) : List String :=
  filesToClean.flatMap fun pat => w.glob pat project.path

/-! ## Bounded-concurrency dispatcher (`processQueue`, identical shape in
all three scripts)

`main` starts `concurrency` copies of `processQueue` over one shared
`projects` array and one shared `results` array.  Inside one worker
iteration, the `projects.length > 0` check and the `projects.shift()`
happen with no `await` between them, so a pop is one atomic step; the
`await` on the strategy is a suspension point, after which the worker
appends the wrapped result.  The embedding is a small-step relation on a
dispatcher state: `pop` models the synchronous check-and-shift, `finish`
models the resumption that pushes the result; interleavings of workers
are arbitrary paths of the relation. -/

/-- One `ProcessResult` record as pushed by `processQueue`:
`\x7b project, success, message, error \x7d`. -/
structure ProcessResult where
  project : Project
  success : Bool
  message : String
  error : Option String
deriving DecidableEq, Repr

/-- Wrapping of a strategy result into the pushed `ProcessResult`. -/
def mkProcessResult (p : Project) (r : StratResult) : ProcessResult :=
  ⟨p, r.success, r.message, r.error⟩

/-- Dispatcher state: the shared queue, each worker's in-flight project
(`none` = idle or between iterations), and the shared results array. -/
structure DispatchState where
  queue : List Project
  workers : List (Option Project)
  results : List ProcessResult
deriving DecidableEq, Repr

/-- One dispatcher step, parameterized by the per-project strategy
outcome: an idle worker atomically pops the queue head, or a busy worker
completes its strategy call and appends the result. -/
inductive DStep (exec : Project → StratResult) : DispatchState → DispatchState → Prop
  | pop {s : DispatchState} (i : Nat) (p : Project) (rest : List Project)
      (hq : s.queue = p :: rest) (hw : s.workers[i]? = some none) :
      DStep exec s ⟨rest, s.workers.set i (some p), s.results⟩
  | finish {s : DispatchState} (i : Nat) (p : Project)
      (hw : s.workers[i]? = some (some p)) :
      DStep exec s ⟨s.queue, s.workers.set i none,
        s.results ++ [mkProcessResult p (exec p)]⟩

/-- The state at `Promise.all(workers)` start: the full queue, `n` idle
workers, no results. -/
def initState (n : Nat) (projects : List Project) : DispatchState :=
  ⟨projects, List.replicate n none, []⟩

/-- The projects currently held by workers. -/
def inFlight (ws : List (Option Project)) : List Project := ws.filterMap id

/-- Conservation quantity of a dispatch run: queued, in-flight, and
completed projects together. -/
def dispatchLoad (s : DispatchState) : List Project :=
  s.queue ++ inFlight s.workers ++ s.results.map ProcessResult.project

/-! ## Concrete instances used by witnesses and counterexamples -/

/-- A successful subprocess outcome with empty streams. -/
def okOutcome : ExecOutcome := ⟨true, "", "", ""⟩

/-- A node project fixture under `/r/app`. -/
def projNodeBuild : Project := ⟨"/r/app", ProjectType.node, "/r/app/package.json"⟩

/-- A world whose manifests declare a `build` script and where pnpm is
available; empty filesystem otherwise. -/
def wProbe : World :=
  ⟨fun _ => Except.ok ⟨some ⟨some "tsc"⟩, none⟩, true, fun _ _ => okOutcome,
    fun _ => none, fun _ _ => [], fun _ => false, fun _ => none, none, fun _ => [],
    "2024-01-02T03:04:05.678Z"⟩

/-- A world whose manifests parse but declare no scripts; empty
filesystem otherwise. -/
def wEmptyDisk : World :=
  ⟨fun _ => Except.ok ⟨none, none⟩, true, fun _ _ => okOutcome,
    fun _ => none, fun _ _ => [], fun _ => false, fun _ => none, none, fun _ => [],
    "2024-01-02T03:04:05.678Z"⟩

/-- A world where `/r/app/dist` exists as a directory containing
`app.log`; manifests parse with no overrides. -/
def wZipLog : World :=
  ⟨fun _ => Except.ok ⟨none, none⟩, true, fun _ _ => okOutcome,
    fun p => if p == "/r/app/dist" then some FsKind.dir else none,
    fun _ _ => [], fun _ => false, fun _ => none, none,
    fun p => if p == "/r/app/dist" then ["app.log"] else [],
    "2024-01-02T03:04:05.678Z"⟩

/-- A world where the `*.log` pattern matches `a.log` in the project
directory and removing it fails with a permission error. -/
def wCleanFail : World :=
  ⟨fun _ => Except.ok ⟨none, none⟩, true, fun _ _ => okOutcome,
    fun _ => none, fun pat _ => if pat == "*.log" then ["a.log"] else [],
    fun p => p == "/r/app/a.log",
    fun p => if p == "/r/app/a.log" then some "EACCES: permission denied" else none,
    none, fun _ => [], "2024-01-02T03:04:05.678Z"⟩

/-- Dry-run build options. -/
def buildOptsDry : BuildOptions := ⟨true, false, "Release", "npm run build"⟩

/-- Non-dry-run build options. -/
def buildOptsWet : BuildOptions := ⟨false, false, "Release", "npm run build"⟩

/-- Dry-run publish options. -/
def pubOptsDry : PublishOptions := ⟨true, false, "Release"⟩

/-- Dry-run zip options with the default output template. -/
def zipOptsDry : ZipOptions :=
  ⟨true, false, CompressionFormat.zip, "\x7bproject\x7d-\x7btimestamp\x7d.\x7bformat\x7d"⟩

/-- Non-dry-run zip options with the default output template. -/
def zipOptsWet : ZipOptions :=
  ⟨false, false, CompressionFormat.zip, "\x7bproject\x7d-\x7btimestamp\x7d.\x7bformat\x7d"⟩

/-- Two projects for a concrete dispatch run. -/
def projA : Project := ⟨"/r/a", ProjectType.node, "/r/a/package.json"⟩

/-- Second project of the concrete dispatch run. -/
def projB : Project := ⟨"/r/b", ProjectType.dotnet, "/r/b/app.csproj"⟩

/-- A trivial strategy outcome for the concrete dispatch run. -/
def execTriv : Project → StratResult := fun _ => ⟨true, "ok", none, none⟩

/-- The final state of a two-worker run over `[projA, projB]` in which
worker 1 finishes before worker 0 (out-of-order completion). -/
def dispatchFinal : DispatchState :=
  ⟨[], [none, none],
    [mkProcessResult projB (execTriv projB), mkProcessResult projA (execTriv projA)]⟩

/-! ## Theorems -/

/-- `find?` returns the first match of a split list. -/
theorem find?_first_match {α : Type} (p : α → Bool) (pre : List α) (e : α) (post : List α)
    (hpre : ∀ x ∈ pre, p x = false) (he : p e = true) :
    List.find? p (pre ++ e :: post) = some e := by
  induction pre with
  | nil => simp [List.find?, he]
  | cons x xs ih =>
    have hx : p x = false := hpre x (by simp)
    simp only [List.cons_append, List.find?, hx]
    exact ih fun y hy => hpre y (by simp [hy])

/-- C2: `detectProject` returns a `node` project referencing
`package.json` whenever an entry with that name exists (even when dotnet
manifests are also present); otherwise, when some entry has a
`.csproj`/`.vbproj`/`.fsproj` extension, a `dotnet` project referencing
the first such entry in listing order; otherwise none. -/
theorem detectProject_priority (dir : String) (entries : List DirEntry) :
    ((∃ e ∈ entries, e.name = "package.json") →
      detectProject dir entries
        = some ⟨dir, ProjectType.node, joinPath dir "package.json"⟩)
    ∧ (∀ pre e post, (∀ x ∈ entries, x.name ≠ "package.json") →
        entries = pre ++ e :: post → (∀ x ∈ pre, isDotnetEntry x = false) →
        isDotnetEntry e = true →
        detectProject dir entries = some ⟨dir, ProjectType.dotnet, joinPath dir e.name⟩)
    ∧ ((∀ x ∈ entries, x.name ≠ "package.json") →
        (∀ x ∈ entries, isDotnetEntry x = false) →
        detectProject dir entries = none) := by
  refine ⟨?_, ?_, ?_⟩
  · rintro ⟨e, he, hname⟩
    have hany : entries.any (fun x => x.name == "package.json") = true :=
      List.any_eq_true.mpr ⟨e, he, by simp [hname]⟩
    simp [detectProject, hany]
  · intro pre e post hno hsplit hpre he
    have hany : entries.any (fun x => x.name == "package.json") = false := by
      simp only [List.any_eq_false]
      intro x hx
      simp [hno x hx]
    subst hsplit
    simp [detectProject, hany, find?_first_match isDotnetEntry pre e post hpre he]
  · intro hno hdn
    have hany : entries.any (fun x => x.name == "package.json") = false := by
      simp only [List.any_eq_false]
      intro x hx
      simp [hno x hx]
    have hfind : entries.find? isDotnetEntry = none :=
      List.find?_eq_none.mpr fun x hx => by simp [hdn x hx]
    simp [detectProject, hany, hfind]

/-- C2 witness: a directory listing both a dotnet manifest and
`package.json` is detected as a node project. -/
theorem detectProject_priority_witness :
    detectProject "/r" [⟨"a.csproj", false⟩, ⟨"package.json", false⟩]
      = some ⟨"/r", ProjectType.node, joinPath "/r" "package.json"⟩ :=
  (detectProject_priority "/r" [⟨"a.csproj", false⟩, ⟨"package.json", false⟩]).1
    ⟨⟨"package.json", false⟩, by simp, rfl⟩

/-- Character data of an appended string. -/
theorem strData_append (a b : String) : (a ++ b).data = a.data ++ b.data := by
  cases a
  cases b
  rfl

/-- A string whose data starts with `/` is POSIX-absolute. -/
theorem specPosixAbsolute_of_data {s : String} {t : List Char} (h : s.data = '/' :: t) :
    specPosixAbsolute s = true := by
  simp [specPosixAbsolute, strStartsWith, h, listIsPre]

/-- `normalizePath` keeps a leading `/`. -/
theorem normalizePath_absolute {s : String} {t : List Char} (h : s.data = '/' :: t) :
    specPosixAbsolute (normalizePath s) = true := by
  have habs : listIsPre ['/'] s.data = true := by simp [h, listIsPre]
  simp only [normalizePath, habs, if_pos]
  exact specPosixAbsolute_of_data rfl

/-- `joinPath` of a POSIX-absolute first part is POSIX-absolute. -/
theorem joinPath_absolute (a b : String) (h : specPosixAbsolute a = true) :
    specPosixAbsolute (joinPath a b) = true := by
  have hdata : ∃ t, a.data = '/' :: t := by
    simp only [specPosixAbsolute, strStartsWith] at h
    cases hd : a.data with
    | nil => rw [hd] at h; simp [listIsPre] at h
    | cons c t =>
      rw [hd] at h
      simp only [listIsPre, Bool.and_eq_true, beq_iff_eq] at h
      exact ⟨t, by rw [← h.1]⟩
  obtain ⟨t, ht⟩ := hdata
  have hne : ¬ a = "" := by
    intro he
    rw [he] at ht
    simp at ht
  simp only [joinPath, if_neg hne]
  by_cases hb : b = ""
  · rw [if_pos hb]
    exact normalizePath_absolute ht
  · rw [if_neg hb]
    have hd : ((a ++ "/") ++ b).data = '/' :: ((t ++ ['/']) ++ b.data) := by
      rw [strData_append, strData_append, ht]
      rfl
    exact normalizePath_absolute hd

/-- C8 counterexample: a POSIX-absolute root (`/opt/data`) fails the
scripts' backslash/drive-letter test, so it is not used as-is but joined
onto the current working directory. -/
theorem resolveDir_posix_counterexample :
    specPosixAbsolute "/opt/data" = true
    ∧ resolveDir "/home/user" "/opt/data" = "/home/user/opt/data"
    ∧ resolveDir "/home/user" "/opt/data" ≠ "/opt/data" := by
  refine ⟨by decide, by decide, by decide⟩

/-- C8 (amended): a root starting with a backslash or matching the
drive-letter pattern `^[A-Za-z]:` is used as-is (even when, like
`C:foo`, it is not absolute); every other root — POSIX-absolute ones
included — is joined onto the current working directory, which yields an
absolute path whenever the working directory is absolute. -/
theorem resolveDir_resolution (cwd dir : String) :
    (strStartsWith dir "\\" = true ∨ isDriveLike dir = true →
      resolveDir cwd dir = dir)
    ∧ (strStartsWith dir "\\" = false → isDriveLike dir = false →
        resolveDir cwd dir = joinPath cwd dir
        ∧ (specPosixAbsolute cwd = true →
            specPosixAbsolute (resolveDir cwd dir) = true)) := by
  constructor
  · intro h
    have : (strStartsWith dir "\\" || isDriveLike dir) = true := by
      rcases h with h | h <;> simp [h]
    simp [resolveDir, this]
  · intro h1 h2
    have : (strStartsWith dir "\\" || isDriveLike dir) = false := by simp [h1, h2]
    refine ⟨by simp [resolveDir, this], fun habs => ?_⟩
    simp only [resolveDir, this, Bool.false_eq_true, if_false]
    exact joinPath_absolute cwd dir habs

/-- C8 witness: a drive-letter-relative root is used as-is, and a plain
relative root resolves to an absolute path under an absolute working
directory. -/
theorem resolveDir_resolution_witness :
    resolveDir "/home/user" "C:stuff" = "C:stuff"
    ∧ specPosixAbsolute (resolveDir "/home/user" "sub") = true :=
  ⟨(resolveDir_resolution "/home/user" "C:stuff").1 (Or.inr (by decide)),
    ((resolveDir_resolution "/home/user" "sub").2 (by decide) (by decide)).2 (by decide)⟩

/-- Visiting an unvisited directory preserves the scanner invariant: the
`readdir` trace stays duplicate-free and inside the visited set, and the
visited set only grows. -/
theorem visitDir_inv (st : ScanSt) (p : String) (pr : Option Project)
    (hnd : st.scanned.Nodup) (hsub : ∀ q ∈ st.scanned, q ∈ st.visited)
    (hp : p ∉ st.visited) :
    (visitDir st p pr).scanned.Nodup
    ∧ (∀ q ∈ (visitDir st p pr).scanned, q ∈ (visitDir st p pr).visited)
    ∧ (∀ q ∈ st.visited, q ∈ (visitDir st p pr).visited) := by
  refine ⟨?_, ?_, ?_⟩
  · have hpn : p ∉ st.scanned := fun hmem => hp (hsub p hmem)
    simp [visitDir, List.nodup_append, hnd, hpn]
  · intro q hq
    simp only [visitDir, List.mem_append, List.mem_singleton] at hq
    simp only [visitDir, List.mem_cons]
    rcases hq with hq | hq
    · exact Or.inr (hsub q hq)
    · exact Or.inl hq
  · intro q hq
    simp only [visitDir, List.mem_cons]
    exact Or.inr hq

/-- The scanner invariant holds through `scanGo`: starting from a state
whose `readdir` trace is duplicate-free and contained in the visited set,
the final trace is duplicate-free and contained in the final visited set,
and the visited set only grows. -/
theorem scanGo_inv (fs : Fs) (cwd : String) :
    ∀ (fuel : Nat) (dirs : List String) (st : ScanSt),
      st.scanned.Nodup → (∀ q ∈ st.scanned, q ∈ st.visited) →
      ((scanGo fs cwd fuel dirs st).scanned.Nodup
        ∧ (∀ q ∈ (scanGo fs cwd fuel dirs st).scanned,
            q ∈ (scanGo fs cwd fuel dirs st).visited)
        ∧ (∀ q ∈ st.visited, q ∈ (scanGo fs cwd fuel dirs st).visited)) := by
  intro fuel
  induction fuel with
  | zero =>
    intro dirs
    induction dirs with
    | nil =>
      intro st hnd hsub
      rw [scanGo]
      exact ⟨hnd, hsub, fun q hq => hq⟩
    | cons dir rest ih =>
      intro st hnd hsub
      rw [scanGo]
      by_cases hv : resolveDir cwd dir ∈ st.visited
      · simp only [if_pos hv]
        exact ih st hnd hsub
      · simp only [if_neg hv]
        cases hfs : fs (resolveDir cwd dir) with
        | none =>
          obtain ⟨h1, h2, h3⟩ := visitDir_inv st (resolveDir cwd dir) none hnd hsub hv
          obtain ⟨g1, g2, g3⟩ := ih _ h1 h2
          exact ⟨g1, g2, fun q hq => g3 q (h3 q hq)⟩
        | some entries =>
          obtain ⟨h1, h2, h3⟩ := visitDir_inv st (resolveDir cwd dir)
            (detectProject (resolveDir cwd dir) entries) hnd hsub hv
          obtain ⟨g1, g2, g3⟩ := ih _ h1 h2
          exact ⟨g1, g2, fun q hq => g3 q (h3 q hq)⟩
  | succ f ihf =>
    intro dirs
    induction dirs with
    | nil =>
      intro st hnd hsub
      rw [scanGo]
      exact ⟨hnd, hsub, fun q hq => hq⟩
    | cons dir rest ih =>
      intro st hnd hsub
      rw [scanGo]
      by_cases hv : resolveDir cwd dir ∈ st.visited
      · simp only [if_pos hv]
        exact ih st hnd hsub
      · simp only [if_neg hv]
        cases hfs : fs (resolveDir cwd dir) with
        | none =>
          obtain ⟨h1, h2, h3⟩ := visitDir_inv st (resolveDir cwd dir) none hnd hsub hv
          obtain ⟨g1, g2, g3⟩ := ih _ h1 h2
          exact ⟨g1, g2, fun q hq => g3 q (h3 q hq)⟩
        | some entries =>
          obtain ⟨h1, h2, h3⟩ := visitDir_inv st (resolveDir cwd dir)
            (detectProject (resolveDir cwd dir) entries) hnd hsub hv
          obtain ⟨m1, m2, m3⟩ := ihf (subdirPaths (resolveDir cwd dir) entries) _ h1 h2
          obtain ⟨g1, g2, g3⟩ := ih _ m1 m2
          exact ⟨g1, g2, fun q hq => g3 q (m3 q (h3 q hq))⟩

/-- C3: every `scanDirectories` invocation attempts `readdir` on each
directory path at most once — the shared visited set covers the whole
call tree, so a directory reachable from two roots or through a cycle in
the modelled filesystem is still scanned at most once, and every scanned
path is recorded in the visited set. -/
theorem scanDirectories_scans_once (fs : Fs) (cwd : String) (fuel : Nat)
    (dirs : List String) :
    (scanDirectories fs cwd fuel dirs).scanned.Nodup
    ∧ ∀ q ∈ (scanDirectories fs cwd fuel dirs).scanned,
        q ∈ (scanDirectories fs cwd fuel dirs).visited := by
  obtain ⟨h1, h2, _⟩ := scanGo_inv fs cwd fuel dirs ⟨[], [], []⟩ (by simp) (by simp)
  exact ⟨h1, h2⟩

/-- In dry-run mode the inner clean loop performs nothing. -/
theorem runRmList_dry (w : World) (pp : String) (l : List String) :
    runRmList w pp true l = ⟨[], 0, none⟩ := by
  induction l with
  | nil => rfl
  | cons x xs ih => simpa [runRmList] using ih

/-- In dry-run mode the outer clean loop performs nothing. -/
theorem runPatterns_dry (w : World) (pp : String) (pats : List String) :
    runPatterns w pp true pats = ⟨[], 0, none⟩ := by
  induction pats with
  | nil => rfl
  | cons pat rest ih => simp [runPatterns, runRmList_dry, ih]

/-- C4 (amended): with the dry-run flag set, every operation strategy
(build, publish, archive, clean) performs no filesystem mutation and
invokes no external process other than the read-only pnpm availability
probe (`pnpm --version`) that the node build/publish paths use to choose
the package manager for the preview; the archive and clean strategies
perform no external effect at all in dry-run. -/
theorem dryRun_effects_only_probe (w : World) (p : Project) (bo : BuildOptions)
    (po : PublishOptions) (zo : ZipOptions) (v : Bool)
    (hb : bo.dryRun = true) (hp : po.dryRun = true) (hz : zo.dryRun = true) :
    (∀ e ∈ (executeBuild w p bo).2, e = probeEffect)
    ∧ (∀ e ∈ (executePublish w p po).2, e = probeEffect)
    ∧ (executeZip w p zo).2 = []
    ∧ (executeClean w p true v).2 = [] := by
  refine ⟨?_, ?_, ?_, ?_⟩
  · cases ht : p.type with
    | node =>
      cases hm : w.manifest p.file with
      | error e => simp [executeBuild, ht, hm]
      | ok pkg =>
        by_cases hscr : hasBuildScript pkg = true
        · simp [executeBuild, ht, hm, hscr, buildRun, hb]
        · simp [executeBuild, ht, hm, Bool.eq_false_iff.mpr hscr]
    | dotnet => simp [executeBuild, ht, buildRun, hb]
    | unknown => simp [executeBuild, ht]
  · cases ht : p.type with
    | node =>
      cases hm : w.manifest p.file with
      | error e => simp [executePublish, publishNodeProject, ht, hm]
      | ok pkg =>
        by_cases hscr : hasBuildScript pkg = true
        · simp [executePublish, publishNodeProject, ht, hm, hscr, publishStage, hp]
        · simp [executePublish, publishNodeProject, ht, hm,
            Bool.eq_false_iff.mpr hscr, publishStage, hp]
    | dotnet => simp [executePublish, publishDotnetProject, ht, hp]
    | unknown => simp [executePublish, ht]
  · simp [executeZip, hz]
  · simp [executeClean, runPatterns_dry]

/-- C4 counterexample: with the dry-run flag set, building a node project
whose manifest declares a build script still performs the external
process invocation `pnpm --version` (the probe runs before the dry-run
check), so dry-run is not free of external process invocations. -/
theorem dryRun_probe_counterexample :
    buildOptsDry.dryRun = true
    ∧ (executeBuild wProbe projNodeBuild buildOptsDry).2
        = [Effect.exec "pnpm --version" none]
    ∧ (executeBuild wProbe projNodeBuild buildOptsDry).1.success = true :=
  ⟨rfl, rfl, rfl⟩

/-- C4 witness: the amended statement applied to concrete dry-run archive
and clean runs: their effect traces are empty. -/
theorem dryRun_effects_only_probe_witness :
    (executeZip wProbe projNodeBuild zipOptsDry).2 = []
    ∧ (executeClean wProbe projNodeBuild true false).2 = [] :=
  ⟨(dryRun_effects_only_probe wProbe projNodeBuild buildOptsDry pubOptsDry zipOptsDry
      false rfl rfl rfl).2.2.1,
    (dryRun_effects_only_probe wProbe projNodeBuild buildOptsDry pubOptsDry zipOptsDry
      false rfl rfl rfl).2.2.2⟩

/-- Splitting the inner clean loop over an appended match list: an early
failure in the first part short-circuits, otherwise the traces and
counters combine. -/
theorem runRmList_append (w : World) (pp : String) (a b : List String) :
    runRmList w pp false (a ++ b) =
      if (runRmList w pp false a).failure.isSome then runRmList w pp false a
      else
        ⟨(runRmList w pp false a).effects ++ (runRmList w pp false b).effects,
          (runRmList w pp false a).cleaned + (runRmList w pp false b).cleaned,
          (runRmList w pp false b).failure⟩ := by
  induction a with
  | nil => simp [runRmList]
  | cons x xs ih =>
    simp only [List.cons_append, runRmList, Bool.false_eq_true, if_false]
    cases h : rmOutcome w (joinPath pp x) with
    | none =>
      by_cases hf : (runRmList w pp false xs).failure.isSome
      · simp [ih, hf]
      · simp only [Bool.not_eq_true] at hf
        simp [ih, hf]
        omega
    | some err => simp

/-- The outer clean loop equals the inner loop run over the flattened
match list. -/
theorem runPatterns_eq_flat (w : World) (pp : String) (pats : List String) :
    runPatterns w pp false pats
      = runRmList w pp false (pats.flatMap fun pat => w.glob pat pp) := by
  induction pats with
  | nil => rfl
  | cons pat rest ih =>
    simp only [List.flatMap_cons, runRmList_append, runPatterns, ih]
    cases hf : (runRmList w pp false (w.glob pat pp)).failure with
    | some f =>
      simp only [hf, Option.isSome_some, if_true]
      rw [← hf]
    | none => simp [hf]

/-- The inner clean loop on a match list whose first failing element is
`f`: it removes the prefix, attempts `f`, records the failure, and stops. -/
theorem runRmList_fail_at (w : World) (pp : String) (f err : String)
    (post : List String) :
    ∀ pre : List String, (∀ x ∈ pre, rmOutcome w (joinPath pp x) = none) →
      rmOutcome w (joinPath pp f) = some err →
      runRmList w pp false (pre ++ f :: post)
        = ⟨(pre ++ [f]).map (fun x => Effect.rm (joinPath pp x)), pre.length,
            some (f, err)⟩ := by
  intro pre
  induction pre with
  | nil =>
    intro hpre hf
    simp [runRmList, hf]
  | cons x xs ih =>
    intro hpre hf
    have hx : rmOutcome w (joinPath pp x) = none := hpre x (by simp)
    have ihh := ih (fun y hy => hpre y (by simp [hy])) hf
    simp only [List.cons_append, runRmList, Bool.false_eq_true, if_false, hx,
      List.append_eq]
    rw [ihh]
    simp

/-- The inner clean loop never fails when every removal succeeds. -/
theorem runRmList_all_ok (w : World) (pp : String) (l : List String)
    (h : ∀ x ∈ l, rmOutcome w (joinPath pp x) = none) :
    (runRmList w pp false l).failure = none := by
  induction l with
  | nil => rfl
  | cons x xs ih =>
    have hx : rmOutcome w (joinPath pp x) = none := h x (by simp)
    simp only [runRmList, Bool.false_eq_true, if_false, hx]
    exact ih fun y hy => h y (by simp [hy])

/-- C5: in a non-dry-run clean, a failure removing any single matched
path makes `executeClean` stop at that path and return an unsuccessful
result carrying the error, its effect trace showing exactly the removals
up to and including the failing one (later matches and patterns are never
attempted); and a run in which every matched target is already absent is
tolerated (forced removal of a missing path succeeds) and reports
success. -/
theorem executeClean_first_error_stops :
    (∀ (w : World) (project : Project) (v : Bool) (pre : List String) (f : String)
        (post : List String) (err : String),
      cleanMatches w project = pre ++ f :: post →
      (∀ x ∈ pre, rmOutcome w (joinPath project.path x) = none) →
      rmOutcome w (joinPath project.path f) = some err →
      executeClean w project false v =
        (⟨false, s!"删除 {f} 失败", some err, none⟩,
          (pre ++ [f]).map fun x => Effect.rm (joinPath project.path x)))
    ∧ (∀ (w : World) (project : Project) (v : Bool),
      (∀ x ∈ cleanMatches w project,
        w.pathExists (joinPath project.path x) = false) →
      (executeClean w project false v).1.success = true) := by
  constructor
  · intro w project v pre f post err hsplit hpre hf
    have hflat : runPatterns w project.path false filesToClean
        = runRmList w project.path false (pre ++ f :: post) := by
      rw [runPatterns_eq_flat]
      exact congrArg _ hsplit
    simp only [executeClean, hflat, runRmList_fail_at w project.path f err post pre hpre hf]
  · intro w project v habs
    have hok : ∀ x ∈ cleanMatches w project,
        rmOutcome w (joinPath project.path x) = none := by
      intro x hx
      simp [rmOutcome, habs x hx]
    have hnone : (runPatterns w project.path false filesToClean).failure = none := by
      rw [runPatterns_eq_flat]
      exact runRmList_all_ok w project.path (cleanMatches w project) hok
    simp only [executeClean, hnone]

/-- C5 witness: in a world where the `*.log` pattern matches `a.log` and
removing it fails with a permission error, the clean run stops at that
path and surfaces the error. -/
theorem executeClean_first_error_stops_witness :
    executeClean wCleanFail projNodeBuild false false =
      (⟨false, "删除 a.log 失败", some "EACCES: permission denied", none⟩,
        [Effect.rm "/r/app/a.log"]) := by
  have h := executeClean_first_error_stops.1 wCleanFail projNodeBuild false [] "a.log" []
    "EACCES: permission denied" (by decide) (by decide) (by decide)
  simpa using h

/-- C6: in a non-dry-run archive where no configured include entry both
exists on disk (as a file or directory) and survives the exclusion
filter, `executeZip` returns an unsuccessful result whose message says
there is nothing to compress, with no error text, no output-file field,
and an empty effect trace — in particular no output file is created and
nothing is thrown. -/
theorem executeZip_nothing_to_archive (w : World) (project : Project)
    (opts : ZipOptions) (hdry : opts.dryRun = false)
    (hall : ∀ pat ∈ (readCompressionConfig w project opts.format).files.getD [],
      zipSurvives w project.path
        ((readCompressionConfig w project opts.format).exclude.getD []) pat = false) :
    executeZip w project opts =
      (⟨false, s!"项目 {project.path} 中没有找到要压缩的文件", none, none⟩, []) := by
  have hfilter :
      ((readCompressionConfig w project opts.format).files.getD []).filter
        (zipSurvives w project.path
          ((readCompressionConfig w project opts.format).exclude.getD [])) = [] := by
    rw [List.filter_eq_nil_iff]
    intro a ha
    simp [hall a ha]
  simp [executeZip, hdry, hfilter]

/-- C6 witness: archiving a node project on an empty disk (none of the
default include entries exist) fails non-fatally with the
nothing-to-compress message and an empty effect trace. -/
theorem executeZip_nothing_to_archive_witness :
    executeZip wEmptyDisk projNodeBuild zipOptsWet =
      (⟨false, "项目 /r/app 中没有找到要压缩的文件", none, none⟩, []) := by
  have h := executeZip_nothing_to_archive wEmptyDisk projNodeBuild zipOptsWet rfl
    (by decide)
  simpa using h

/-- C7: building a node project whose manifest parses but declares no
build script (no `scripts` object, no `build` entry, or an empty one)
returns an unsuccessful result with an explicit message, an empty effect
trace, and no thrown exception — the project is simply skipped. -/
theorem executeBuild_no_build_script (w : World) (project : Project)
    (opts : BuildOptions) (pkg : PackageJson)
    (ht : project.type = ProjectType.node)
    (hm : w.manifest project.file = Except.ok pkg)
    (hb : hasBuildScript pkg = false) :
    executeBuild w project opts =
      (⟨false, s!"Node.js项目 {project.path} 中没有配置 build 脚本", none, none⟩, []) := by
  simp [executeBuild, ht, hm, hb]

/-- C7 witness: a concrete node project with a scriptless manifest is
skipped with the explicit message. -/
theorem executeBuild_no_build_script_witness :
    executeBuild wEmptyDisk projNodeBuild buildOptsWet =
      (⟨false, "Node.js项目 /r/app 中没有配置 build 脚本", none, none⟩, []) := by
  have h := executeBuild_no_build_script wEmptyDisk projNodeBuild buildOptsWet
    ⟨none, none⟩ rfl rfl rfl
  simpa using h

/-- C10: the dry-run branch of `executeZip` returns success before the
include-list filtering runs, so every dry-run archive succeeds; on an
empty disk the same project succeeds under dry-run but fails with the
nothing-to-compress message without it. -/
theorem executeZip_dry_run_divergence :
    (∀ (w : World) (p : Project) (zo : ZipOptions), zo.dryRun = true →
      (executeZip w p zo).1.success = true)
    ∧ (executeZip wEmptyDisk projNodeBuild zipOptsDry).1.success = true
    ∧ (executeZip wEmptyDisk projNodeBuild zipOptsWet).1.success = false
    ∧ (executeZip wEmptyDisk projNodeBuild zipOptsWet).1.message
        = "项目 /r/app 中没有找到要压缩的文件" := by
  refine ⟨?_, rfl, rfl, rfl⟩
  intro w p zo hz
  simp [executeZip, hz]

/-- C10 witness: the universal dry-run-success part applied to the
concrete empty-disk world. -/
theorem executeZip_dry_run_divergence_witness :
    (executeZip wEmptyDisk projNodeBuild zipOptsDry).1.success = true :=
  executeZip_dry_run_divergence.1 wEmptyDisk projNodeBuild zipOptsDry rfl

/-- C9: `shouldExclude` depends only on the basename of the tested path;
and concretely, the contents of an included directory are archived with
no exclusion filtering, so `dist/app.log` ends up in the archive even
though `*.log` is among the exclusion patterns and matches it. -/
theorem shouldExclude_basename_only :
    (∀ p q pats, basename p = basename q → shouldExclude p pats = shouldExclude q pats)
    ∧ "dist/app.log" ∈ archiveContents wZipLog (executeZip wZipLog projNodeBuild zipOptsWet).2
    ∧ shouldExclude "dist/app.log" ["node_modules", "*.log", ".git"] = true := by
  refine ⟨?_, by decide, by decide⟩
  intro p q pats h
  simp only [shouldExclude, h]

/-- C9 witness: two paths in different directories with the same basename
are treated identically by the exclusion filter. -/
theorem shouldExclude_basename_only_witness :
    shouldExclude "a/x.log" ["*.log"] = shouldExclude "b/x.log" ["*.log"] :=
  shouldExclude_basename_only.1 "a/x.log" "b/x.log" ["*.log"] rfl

/-- Setting an idle worker slot to a project inserts that project into the
in-flight list, up to permutation. -/
theorem filterMap_set_insert {α : Type} :
    ∀ (l : List (Option α)) (i : Nat) (p : α), l[i]? = some none →
      (l.set i (some p)).filterMap id ~ p :: l.filterMap id := by
  intro l
  induction l with
  | nil => intro i p h; simp at h
  | cons a t ih =>
    intro i p h
    cases i with
    | zero =>
      simp only [List.getElem?_cons_zero, Option.some.injEq] at h
      subst h
      simp [List.filterMap_cons]
    | succ j =>
      simp only [List.getElem?_cons_succ] at h
      cases a with
      | none => simpa [List.filterMap_cons] using ih j p h
      | some b =>
        simp only [List.set_cons_succ, List.filterMap_cons, id]
        exact ((ih j p h).cons b).trans (List.Perm.swap p b _)

/-- Clearing a busy worker slot removes its project from the in-flight
list, up to permutation. -/
theorem filterMap_set_remove {α : Type} :
    ∀ (l : List (Option α)) (i : Nat) (p : α), l[i]? = some (some p) →
      l.filterMap id ~ p :: (l.set i none).filterMap id := by
  intro l
  induction l with
  | nil => intro i p h; simp at h
  | cons a t ih =>
    intro i p h
    cases i with
    | zero =>
      simp only [List.getElem?_cons_zero, Option.some.injEq] at h
      subst h
      simp [List.filterMap_cons]
    | succ j =>
      simp only [List.getElem?_cons_succ] at h
      cases a with
      | none => simpa [List.filterMap_cons] using ih j p h
      | some b =>
        simp only [List.set_cons_succ, List.filterMap_cons, id]
        exact ((ih j p h).cons b).trans (List.Perm.swap p b _)

/-- A pool of idle workers holds nothing in flight. -/
theorem filterMap_replicate_none {α : Type} (n : Nat) :
    (List.replicate n (none : Option α)).filterMap id = [] := by
  induction n with
  | zero => rfl
  | succ m ih => simp [List.replicate_succ, List.filterMap_cons, ih]

/-- A list of `none` slots holds nothing in flight. -/
theorem filterMap_of_all_none {α : Type} (l : List (Option α))
    (h : ∀ w ∈ l, w = none) :
    l.filterMap id = [] := by
  induction l with
  | nil => rfl
  | cons a t ih =>
    have ha : a = none := h a (by simp)
    subst ha
    simp only [List.filterMap_cons, id]
    exact ih fun x hx => h x (by simp [hx])

/-- Each dispatcher step preserves the conserved load (queued, in-flight,
and completed projects) up to permutation. -/
theorem dstep_load_perm {exec : Project → StratResult} {s t : DispatchState}
    (h : DStep exec s t) : dispatchLoad t ~ dispatchLoad s := by
  cases h with
  | pop i p rest hq hw =>
    have hins := filterMap_set_insert s.workers i p hw
    simp only [dispatchLoad, inFlight, hq]
    calc rest ++ (s.workers.set i (some p)).filterMap id
          ++ s.results.map ProcessResult.project
        ~ rest ++ (p :: s.workers.filterMap id) ++ s.results.map ProcessResult.project :=
          (hins.append_left rest).append_right _
      _ ~ (p :: rest) ++ s.workers.filterMap id ++ s.results.map ProcessResult.project :=
          List.perm_middle.append_right _
  | finish i p hw =>
    have hrem := filterMap_set_remove s.workers i p hw
    simp only [dispatchLoad, inFlight, List.map_append, List.map_cons, List.map_nil]
    calc s.queue ++ (s.workers.set i none).filterMap id
          ++ (s.results.map ProcessResult.project ++ [p])
        ~ s.queue ++ (s.workers.set i none).filterMap id
          ++ (p :: s.results.map ProcessResult.project) :=
          (List.perm_append_singleton p _).append_left _
      _ ~ p :: (s.queue ++ (s.workers.set i none).filterMap id
          ++ s.results.map ProcessResult.project) := List.perm_middle
      _ ~ p :: (s.queue ++ (s.workers.set i none).filterMap id)
          ++ s.results.map ProcessResult.project := List.Perm.refl _
      _ ~ s.queue ++ (p :: (s.workers.set i none).filterMap id)
          ++ s.results.map ProcessResult.project :=
          (List.perm_middle.symm).append_right _
      _ ~ s.queue ++ s.workers.filterMap id ++ s.results.map ProcessResult.project :=
          (hrem.symm.append_left s.queue).append_right _

/-- The conserved load is invariant along any reachable execution. -/
theorem reach_load_perm {exec : Project → StratResult} {s t : DispatchState}
    (h : Relation.ReflTransGen (DStep exec) s t) :
    dispatchLoad t ~ dispatchLoad s := by
  induction h with
  | refl => exact List.Perm.refl _
  | tail hst step ih => exact (dstep_load_perm step).trans ih

/-- C1: for any concurrency, any strategy outcome, and any interleaving
of worker pops and completions, a completed dispatch run (empty queue,
all workers idle) reachable from the initial state has exactly one
`ProcessResult` per submitted project: the result count equals the
project count, the multiset of result projects is a permutation of the
input projects (no duplication, no loss), and the set of result project
paths equals the set of input project paths. -/
theorem processQueue_exactly_once (n : Nat) (projects : List Project)
    (exec : Project → StratResult) (s : DispatchState) (hn : 0 < n)
    (hreach : Relation.ReflTransGen (DStep exec) (initState n projects) s)
    (hq : s.queue = []) (hw : ∀ w ∈ s.workers, w = none) :
    s.results.length = projects.length
    ∧ s.results.map ProcessResult.project ~ projects
    ∧ (s.results.map fun r => r.project.path).toFinset
        = (projects.map Project.path).toFinset := by
  have h := reach_load_perm hreach
  simp only [dispatchLoad, inFlight, initState, hq, filterMap_replicate_none,
    filterMap_of_all_none s.workers hw, List.map_nil, List.append_nil,
    List.nil_append] at h
  refine ⟨?_, h, ?_⟩
  · have := h.length_eq
    simpa using this
  · have hpaths : (s.results.map ProcessResult.project).map Project.path
        ~ projects.map Project.path := h.map Project.path
    rw [List.map_map] at hpaths
    ext a
    simp only [List.mem_toFinset]
    constructor
    · intro ha
      exact hpaths.mem_iff.mp (by simpa using ha)
    · intro ha
      simpa using hpaths.mem_iff.mpr ha

/-- C1 witness: a two-worker run over two projects in which the second
worker finishes first; the completed state carries exactly one result per
project. -/
theorem processQueue_exactly_once_witness :
    dispatchFinal.results.map ProcessResult.project ~ [projA, projB] :=
  (processQueue_exactly_once 2 [projA, projB] execTriv dispatchFinal (by decide)
    (Relation.ReflTransGen.head (DStep.pop 0 projA [projB] rfl rfl)
      (Relation.ReflTransGen.head (DStep.pop 1 projB [] rfl rfl)
        (Relation.ReflTransGen.head (DStep.finish 1 projB rfl)
          (Relation.ReflTransGen.head (DStep.finish 0 projA rfl)
            Relation.ReflTransGen.refl))))
    rfl (by decide)).2.1
